import Mathlib

/-!
Verification of the two-tier caching subsystem of the weather-vuejs
application (src/services/weatherApi.js: MemoryCache, PersistentCache,
CacheService).

Modelling conventions (shallow embedding):
* Cached payloads ("any serializable value") are represented by their JSON
  serialization, a `String`.  `estimateSize` (source: `new
  Blob([JSON.stringify(data)]).size`) is the UTF-8 byte size of that
  serialization.
* `Date.now()` is passed explicitly as an `Int` argument `now` to every
  operation that reads the clock.  JS numbers on the values involved
  (millisecond timestamps, ttls, sizes, counters) are exact integers well
  inside the double-precision safe range, so they are modelled as `Int`.
* The JS `Map` of the memory tier is an association list in insertion
  order; `Map.set` on an existing key overwrites in place (keeping the
  original position), which the model mirrors.
* The two `while` eviction loops of `evictIfNeeded` are modelled with
  explicit fuel; a loop iteration that does not shrink the map leaves the
  whole state unchanged, so the real loop would spin forever — the model
  returns `none` in exactly that situation (and when fuel `length + 1`
  is insufficient, which cannot happen since each productive iteration
  removes one entry).
* `localStorage` stores, per key, the text produced by `JSON.stringify`.
  The model keeps that text abstract as the inductive `StoreVal`: an
  entry object, the metadata index object, or arbitrary other text
  (`rawV`), on which `JSON.parse`-as-entry fails.  `setItem` throws
  (returns `none`) exactly when the storage is broken/disabled.
-/

/-- CACHE_CONFIG.WEATHER_DATA: default ttl, 10 minutes in milliseconds. -/
def WEATHER_DATA : Int := 10 * 60 * 1000

/-- CACHE_CONFIG.MAX_ENTRIES: maximum number of memory-cache entries. -/
def MAX_ENTRIES : Int := 100

/-- CACHE_CONFIG.MAX_MEMORY_SIZE: maximum memory usage, 10 MiB in bytes. -/
def MAX_MEMORY_SIZE : Int := 10 * 1024 * 1024

/-- CACHE_CONFIG.STORAGE_PREFIX: localStorage key namespace. -/
def STORAGE_PREFIX_STR : String := "weather_cache_"

/-- CACHE_CONFIG.METADATA_KEY: localStorage key of the metadata index. -/
def METADATA_KEY : String := "weather_cache_metadata"

/-- A memory-tier cache entry (source: the object built in `MemoryCache.set`). -/
structure Entry where
  data : String
  timestamp : Int
  ttl : Int
  size : Int
  hits : Int
  key : String
deriving Repr, DecidableEq

/-- Memory-tier metadata counters (source: `MemoryCache.constructor`). -/
structure MMeta where
  totalSize : Int
  totalEntries : Int
  hits : Int
  misses : Int
  evictions : Int
deriving Repr, DecidableEq

/-- The memory tier: a Map in insertion order plus its metadata. -/
structure MemoryCache where
  cache : List (String × Entry)
  metadata : MMeta
deriving Repr, DecidableEq

/-- A fresh `new MemoryCache()`. -/
def emptyMemoryCache : MemoryCache :=
  { cache := [], metadata := ⟨0, 0, 0, 0, 0⟩ }

/-- JS `Map.get`: the value at the (unique) occurrence of `k`. -/
def assocGet {β : Type} (k : String) : List (String × β) → Option β
  | [] => none
  | p :: t => if p.1 = k then some p.2 else assocGet k t

/-- JS `Map.set`: overwrite in place if present (keeping the position in
iteration order), otherwise append at the end. -/
def assocSet {β : Type} (k : String) (v : β) : List (String × β) → List (String × β)
  | [] => [(k, v)]
  | p :: t => if p.1 = k then (k, v) :: t else p :: assocSet k v t

/-- JS `Map.delete`: remove the occurrence(s) of `k`. -/
def assocErase {β : Type} (k : String) : List (String × β) → List (String × β)
  | [] => []
  | p :: t => if p.1 = k then assocErase k t else p :: assocErase k t

/-- MemoryCache.estimateSize: `new Blob([JSON.stringify(data)]).size`, the
UTF-8 byte count of the serialized payload. -/
def estimateSize (data : String) : Int :=
  (data.utf8ByteSize : Int)

/-- MemoryCache.delete: remove the entry and decrement `totalSize` /
`totalEntries`. -/
def MemoryCache.delete (st : MemoryCache) (key : String) : MemoryCache :=
  match assocGet key st.cache with
  | some e =>
    { st with
      cache := assocErase key st.cache,
      metadata := { st.metadata with
        totalSize := st.metadata.totalSize - e.size,
        totalEntries := st.metadata.totalEntries - 1 } }
  | none => st

/-- MemoryCache.get: miss on absence; delete-and-miss on expiry
(`now - timestamp > ttl`); otherwise bump the entry's and the tier's hit
counters and return the data. -/
def MemoryCache.get (st : MemoryCache) (now : Int) (key : String) :
    Option String × MemoryCache :=
  match assocGet key st.cache with
  | none =>
    (none, { st with metadata := { st.metadata with misses := st.metadata.misses + 1 } })
  | some e =>
    if now - e.timestamp > e.ttl then
      let st' := st.delete key
      (none, { st' with metadata := { st'.metadata with misses := st'.metadata.misses + 1 } })
    else
      (some e.data,
       { st with
         cache := assocSet key { e with hits := e.hits + 1 } st.cache,
         metadata := { st.metadata with hits := st.metadata.hits + 1 } })

/-- MemoryCache.has: expiry check like `get`, deleting an expired entry,
but without touching the hit/miss counters. -/
def MemoryCache.has (st : MemoryCache) (now : Int) (key : String) :
    Bool × MemoryCache :=
  match assocGet key st.cache with
  | none => (false, st)
  | some e =>
    if now - e.timestamp > e.ttl then (false, st.delete key) else (true, st)

/-- MemoryCache.clear: drop all entries and reset every counter. -/
def MemoryCache.clear (_st : MemoryCache) : MemoryCache :=
  emptyMemoryCache

/-- One step of the `for (const [key, entry] of this.cache)` scan in
`evictLeastRecentlyUsed`: keep the first entry that strictly improves the
running oldest timestamp. -/
def pickStep (acc : Option String × Int) (p : String × Entry) : Option String × Int :=
  if p.2.timestamp < acc.2 then (some p.1, p.2.timestamp) else acc

/-- The scan of `evictLeastRecentlyUsed`: `oldestKey` starts as `null` and
`oldestTime` as `Date.now()`. -/
def pickOldest (now : Int) (l : List (String × Entry)) : Option String × Int :=
  l.foldl pickStep (none, now)

/-- MemoryCache.evictLeastRecentlyUsed: delete the picked entry and count
an eviction; when no entry has `timestamp < Date.now()` nothing happens. -/
def MemoryCache.evictLeastRecentlyUsed (st : MemoryCache) (now : Int) : MemoryCache :=
  match (pickOldest now st.cache).1 with
  | some k =>
    let st' := st.delete k
    { st' with metadata := { st'.metadata with evictions := st'.metadata.evictions + 1 } }
  | none => st

/-- Guard of the first `while` loop of `evictIfNeeded` (memory limit). -/
def sizeGuard (newEntrySize : Int) (st : MemoryCache) : Bool :=
  decide (st.metadata.totalSize + newEntrySize > MAX_MEMORY_SIZE) &&
  decide (st.cache.length > 0)

/-- Guard of the second `while` loop of `evictIfNeeded` (entry-count limit). -/
def countGuard (st : MemoryCache) : Bool :=
  decide (st.metadata.totalEntries ≥ MAX_ENTRIES) &&
  decide (st.cache.length > 0)

/-- A `while (g st) evictLeastRecentlyUsed()` loop, run on fuel.  An
iteration that does not shrink the map leaves the state unchanged, so the
source loop diverges; the model then answers `none`. -/
def evictWhile (now : Int) (g : MemoryCache → Bool) : Nat → MemoryCache → Option MemoryCache
  | 0, st => if g st then none else some st
  | Nat.succ n, st =>
    if g st then
      let st' := st.evictLeastRecentlyUsed now
      if st'.cache.length < st.cache.length then evictWhile now g n st' else none
    else some st

/-- MemoryCache.evictIfNeeded: the memory-limit loop, then the
entry-count loop.  `none` models divergence of a source loop. -/
def evictIfNeeded (st : MemoryCache) (now : Int) (newEntrySize : Int) :
    Option MemoryCache :=
  match evictWhile now (sizeGuard newEntrySize) (st.cache.length + 1) st with
  | none => none
  | some st1 => evictWhile now countGuard (st1.cache.length + 1) st1

/-- MemoryCache.set: estimate the size, evict as needed, subtract a
replaced entry's accounting, then insert and add the new accounting.
`none` models divergence of the eviction loops. -/
def MemoryCache.set (st : MemoryCache) (now : Int) (key data : String) (ttl : Int) :
    Option MemoryCache :=
  let size := estimateSize data
  let entry : Entry := ⟨data, now, ttl, size, 0, key⟩
  match evictIfNeeded st now size with
  | none => none
  | some st1 =>
    let st2 :=
      match assocGet key st1.cache with
      | some old =>
        { st1 with metadata := { st1.metadata with
            totalSize := st1.metadata.totalSize - old.size,
            totalEntries := st1.metadata.totalEntries - 1 } }
      | none => st1
    some { st2 with
      cache := assocSet key entry st2.cache,
      metadata := { st2.metadata with
        totalSize := st2.metadata.totalSize + size,
        totalEntries := st2.metadata.totalEntries + 1 } }

/-- JS `Math.round` and the integer selection of `Number.toFixed`, on the
exact rational `a / b` with `0 < b`: the integer nearest to `a / b`, ties
toward the larger, computed as `⌊a/b + 1/2⌋ = (2a+b) ediv (2b)`. -/
def roundHalfUpDiv (a b : Int) : Int :=
  Int.ediv (2 * a + b) (2 * b)

/-- Pad a digit string with leading zeros to the requested width. -/
def padZeros (width : Nat) (s : String) : String :=
  String.mk (List.replicate (width - s.length) '0') ++ s

/-- ECMAScript `Number.prototype.toFixed` on the exact nonnegative value
`num / den` (`0 ≤ num`, `0 < den`): pick the integer `n` with
`n / 10^digits` closest to the value (larger on ties) and render it with
exactly `digits` fractional digits. -/
def jsToFixedNonnegFrac (digits : Nat) (num den : Int) : String :=
  let n : Nat := (roundHalfUpDiv (num * (10 : Int) ^ digits) den).toNat
  if digits = 0 then toString n
  else toString (n / 10 ^ digits) ++ "." ++ padZeros digits (toString (n % 10 ^ digits))

/-- ECMAScript `Number.prototype.toFixed` on the exact value `num / den`
(`0 < den`): a negative argument is rendered as `"-"` followed by the
rendering of its negation. -/
def jsToFixedFrac (digits : Nat) (num den : Int) : String :=
  if num < 0 then "-" ++ jsToFixedNonnegFrac digits (-num) den
  else jsToFixedNonnegFrac digits num den

/-- The record returned by MemoryCache.getStats.  The `memoryUsage`
display string (`formatBytes`, driven by `Math.log` on floats) is not part
of any stated property and is omitted. -/
structure MStats where
  totalSize : Int
  totalEntries : Int
  hits : Int
  misses : Int
  evictions : Int
  hitRate : String
  averageEntrySize : Int
deriving Repr, DecidableEq

/-- MemoryCache.getStats: counters plus the derived
`hitRate = (hits/(hits+misses)*100).toFixed(2)` (the number `0`, rendered
`"0%"`, when there has been no access) and
`averageEntrySize = Math.round(totalSize/totalEntries)` (0 when empty). -/
def MemoryCache.getStats (st : MemoryCache) : MStats :=
  let md := st.metadata
  { totalSize := md.totalSize
    totalEntries := md.totalEntries
    hits := md.hits
    misses := md.misses
    evictions := md.evictions
    hitRate :=
      if md.hits + md.misses > 0 then
        jsToFixedFrac 2 (md.hits * 100) (md.hits + md.misses) ++ "%"
      else "0%"
    averageEntrySize :=
      if md.totalEntries > 0 then roundHalfUpDiv md.totalSize md.totalEntries
      else 0 }

/-- The text stored in `localStorage`.  Real storage holds strings; the
model keeps `JSON.stringify` output abstract: an entry object
`\x7b"data":D,"timestamp":T,"ttl":L\x7d` (`D` being the payload's own JSON
text), the metadata index object, or arbitrary other text (`rawV`), on
which parsing as an entry fails. -/
inductive StoreVal where
  | entryV (data : String) (timestamp ttl : Int)
  | metaV (keys : List String) (totalSize lastCleanup : Int)
  | rawV (s : String)
deriving Repr, DecidableEq

/-- The character count of the `JSON.stringify` text a `StoreVal` stands
for (used only for the advisory persistent `totalSize` counter). -/
def StoreVal.strLength : StoreVal → Int
  | .entryV d t l =>
    ("\x7b\"data\":".length : Int) + (d.length : Int) +
    (",\"timestamp\":".length : Int) + ((toString t).length : Int) +
    (",\"ttl\":".length : Int) + ((toString l).length : Int) + 1
  | .metaV ks ts lc =>
    ("\x7b\"keys\":[]".length : Int) + ((ks.map (fun k => (k.length : Int) + 3)).sum) +
    (",\"totalSize\":".length : Int) + ((toString ts).length : Int) +
    (",\"lastCleanup\":".length : Int) + ((toString lc).length : Int) + 1
  | .rawV s => (s.length : Int)

/-- The browser-local key-value store.  `broken = true` models storage
that is disabled or over quota: every write throws. -/
structure LocalStorage where
  items : List (String × StoreVal)
  broken : Bool
deriving Repr, DecidableEq

/-- `localStorage.setItem`: `none` models a thrown exception. -/
def LocalStorage.setItem (ls : LocalStorage) (k : String) (v : StoreVal) :
    Option LocalStorage :=
  if ls.broken then none else some { ls with items := assocSet k v ls.items }

/-- `localStorage.getItem`. -/
def LocalStorage.getItem (ls : LocalStorage) (k : String) : Option StoreVal :=
  assocGet k ls.items

/-- `localStorage.removeItem`: `none` models a thrown exception. -/
def LocalStorage.removeItem (ls : LocalStorage) (k : String) : Option LocalStorage :=
  if ls.broken then none else some { ls with items := assocErase k ls.items }

/-- Persistent-tier metadata index (source: default object in
`PersistentCache.loadMetadata`). -/
structure PMeta where
  keys : List String
  totalSize : Int
  lastCleanup : Int
deriving Repr, DecidableEq

/-- The persistent tier.  `metadata = none` models the `undefined` field
left behind when `loadMetadata` returns early because the availability
probe failed. -/
structure PersistentCache where
  storage : LocalStorage
  storageAvailable : Bool
  metadata : Option PMeta
deriving Repr, DecidableEq

/-- Remove the first occurrence of `k` (JS
`keys.splice(keys.indexOf(k), 1)`). -/
def eraseFirst (k : String) : List String → List String
  | [] => []
  | x :: t => if x = k then t else x :: eraseFirst k t

/-- PersistentCache.saveMetadata: write the metadata index under
METADATA_KEY; a thrown write is caught and dropped. -/
def PersistentCache.saveMetadata (ps : PersistentCache) : PersistentCache :=
  if !ps.storageAvailable then ps
  else
    match ps.metadata with
    | none => ps
    | some md =>
      match ps.storage.setItem METADATA_KEY (.metaV md.keys md.totalSize md.lastCleanup) with
      | some ls' => { ps with storage := ls' }
      | none => ps

/-- PersistentCache constructor: probe the storage
(`checkStorageAvailability`) and load the metadata index.  When the probe
fails the metadata field is never assigned (`none`); when the stored index
is missing or does not parse as a metadata object a fresh default is
used. -/
def PersistentCache.construct (now : Int) (ls : LocalStorage) : PersistentCache :=
  match ls.setItem "__storage_test__" (.rawV "__storage_test__") with
  | none => { storage := ls, storageAvailable := false, metadata := none }
  | some ls1 =>
    let ls2 := (ls1.removeItem "__storage_test__").getD ls1
    let md : PMeta :=
      match ls2.getItem METADATA_KEY with
      | some (.metaV ks ts lc) => ⟨ks, ts, lc⟩
      | some _ => ⟨[], 0, now⟩
      | none => ⟨[], 0, now⟩
    { storage := ls2, storageAvailable := true, metadata := some md }

/-- PersistentCache.set: serialize `\x7bdata, timestamp, ttl\x7d` under the
namespaced key, then track the bare key (deduplicated) and the serialized
length in the metadata index and persist the index.  A thrown `setItem`
is caught before the metadata is touched. -/
def PersistentCache.set (ps : PersistentCache) (now : Int) (key data : String) (ttl : Int) :
    PersistentCache :=
  if !ps.storageAvailable then ps
  else
    match ps.metadata with
    | none => ps
    | some md =>
      let sv : StoreVal := .entryV data now ttl
      match ps.storage.setItem (STORAGE_PREFIX_STR ++ key) sv with
      | none => ps
      | some ls' =>
        let md' : PMeta :=
          { md with
            keys := if key ∈ md.keys then md.keys else md.keys ++ [key],
            totalSize := md.totalSize + sv.strLength }
        PersistentCache.saveMetadata { ps with storage := ls', metadata := some md' }

/-- PersistentCache.delete: remove the namespaced storage entry; if the
bare key was tracked, drop it from the index and persist the index. -/
def PersistentCache.delete (ps : PersistentCache) (key : String) : PersistentCache :=
  if !ps.storageAvailable then ps
  else
    let ls' := (ps.storage.removeItem (STORAGE_PREFIX_STR ++ key)).getD ps.storage
    match ps.metadata with
    | none => { ps with storage := ls' }
    | some md =>
      if key ∈ md.keys then
        PersistentCache.saveMetadata
          { ps with storage := ls', metadata := some { md with keys := eraseFirst key md.keys } }
      else { ps with storage := ls' }

/-- PersistentCache.get: read the namespaced key; `null` on absence; a
stored text that does not parse as an entry is caught and treated as
absent (a metadata object stored under the key yields `undefined` data in
JS — modelled as absent as well); an expired entry is deleted and `null`
returned. -/
def PersistentCache.get (ps : PersistentCache) (now : Int) (key : String) :
    Option String × PersistentCache :=
  if !ps.storageAvailable then (none, ps)
  else
    match ps.storage.getItem (STORAGE_PREFIX_STR ++ key) with
    | none => (none, ps)
    | some (.entryV d t l) =>
      if now - t > l then (none, ps.delete key) else (some d, ps)
    | some _ => (none, ps)

/-- PersistentCache.clear: remove every tracked key's storage entry and
the index itself, and reset the in-memory metadata. -/
def PersistentCache.clear (ps : PersistentCache) (now : Int) : PersistentCache :=
  if !ps.storageAvailable then ps
  else
    match ps.metadata with
    | none => ps
    | some md =>
      let ls1 := md.keys.foldl
        (fun ls k => (ls.removeItem (STORAGE_PREFIX_STR ++ k)).getD ls) ps.storage
      let ls2 := (ls1.removeItem METADATA_KEY).getD ls1
      { ps with storage := ls2, metadata := some ⟨[], 0, now⟩ }

/-- PersistentCache.cleanup: scan every tracked key; mark it when missing,
unparsable or expired; delete the marked keys; stamp `lastCleanup` and
persist the index. -/
def PersistentCache.cleanup (ps : PersistentCache) (now : Int) : PersistentCache :=
  if !ps.storageAvailable then ps
  else
    match ps.metadata with
    | none => ps
    | some md =>
      let keysToDelete := md.keys.filter fun k =>
        match ps.storage.getItem (STORAGE_PREFIX_STR ++ k) with
        | some (.entryV _ t l) => decide (now - t > l)
        | some _ => true
        | none => true
      let ps1 := keysToDelete.foldl (fun acc k => acc.delete k) ps
      let ps2 :=
        match ps1.metadata with
        | some md1 => { ps1 with metadata := some { md1 with lastCleanup := now } }
        | none => ps1
      PersistentCache.saveMetadata ps2

/-- The CacheService façade over the two tiers. -/
structure CacheService where
  memoryCache : MemoryCache
  persistentCache : PersistentCache
deriving Repr, DecidableEq

/-- CacheService constructor: fresh memory tier, persistent tier built
from the given storage, one immediate cleanup pass.  The recurring hourly
cleanup timer (`setupPeriodicCleanup`) only schedules later `cleanup`
calls and is not part of the state. -/
def CacheService.construct (now : Int) (ls : LocalStorage) : CacheService :=
  let pc := PersistentCache.construct now ls
  { memoryCache := emptyMemoryCache, persistentCache := pc.cleanup now }

/-- CacheService.set: write to the tier(s) selected by the
`memory`/`persistent` flags, with the shared ttl. -/
def CacheService.set (cs : CacheService) (now : Int) (key data : String) (ttl : Int)
    (persistent memory : Bool) : Option CacheService :=
  match (if memory then cs.memoryCache.set now key data ttl else some cs.memoryCache) with
  | none => none
  | some m' =>
    some { memoryCache := m',
           persistentCache :=
             if persistent then cs.persistentCache.set now key data ttl
             else cs.persistentCache }

/-- CacheService.get: memory tier first; on a memory miss consult the
persistent tier and promote a hit into the memory tier with the memory
tier's default ttl (`CACHE_CONFIG.WEATHER_DATA`), not the entry's original
ttl.  `none` models divergence of the promotion's eviction loop. -/
def CacheService.get (cs : CacheService) (now : Int) (key : String) :
    Option (Option String × CacheService) :=
  let mr := cs.memoryCache.get now key
  match mr.1 with
  | some v => some (some v, { memoryCache := mr.2, persistentCache := cs.persistentCache })
  | none =>
    let pr := cs.persistentCache.get now key
    match pr.1 with
    | some v =>
      match mr.2.set now key v WEATHER_DATA with
      | some m2 => some (some v, { memoryCache := m2, persistentCache := pr.2 })
      | none => none
    | none => some (none, { memoryCache := mr.2, persistentCache := pr.2 })

/-- CacheService.delete: fan out to both tiers. -/
def CacheService.delete (cs : CacheService) (key : String) : CacheService :=
  { memoryCache := cs.memoryCache.delete key,
    persistentCache := cs.persistentCache.delete key }

/-- CacheService.clear: fan out to both tiers. -/
def CacheService.clear (cs : CacheService) (now : Int) : CacheService :=
  { memoryCache := cs.memoryCache.clear,
    persistentCache := cs.persistentCache.clear now }

/-- A JavaScript runtime exception escaping to the caller. -/
inductive JsError where
  | typeError
deriving Repr, DecidableEq

/-- The merged report of CacheService.getStats (the persistent
`lastCleanup` is kept as the raw timestamp that `new
Date(...).toISOString()` renders). -/
structure CacheStats where
  memory : MStats
  persistentAvailable : Bool
  persistentEntries : Int
  persistentTotalSize : Int
  persistentLastCleanup : Int
deriving Repr, DecidableEq

/-- CacheService.getStats: reads
`this.persistentCache.metadata.keys.length` (and the other metadata
fields) without any availability guard; when the metadata field was never
assigned (probe failure at construction) the property access throws a
TypeError, modelled as `Except.error`. -/
def CacheService.getStats (cs : CacheService) : Except JsError CacheStats :=
  match cs.persistentCache.metadata with
  | none => .error .typeError
  | some md =>
    .ok { memory := cs.memoryCache.getStats
          persistentAvailable := cs.persistentCache.storageAvailable
          persistentEntries := (md.keys.length : Int)
          persistentTotalSize := md.totalSize
          persistentLastCleanup := md.lastCleanup }

/-- An exact decimal number `mantissa / 10 ^ exponent`: the form of the
coordinate literals fed to `generateWeatherKey` (all well inside the range
where a JS double represents them closely enough that `toFixed(4)` agrees
with the exact decimal). -/
structure Dec where
  mantissa : Int
  exponent : Nat
deriving Repr, DecidableEq

/-- `Number.prototype.toFixed` applied to an exact decimal. -/
def Dec.toFixed (digits : Nat) (d : Dec) : String :=
  jsToFixedFrac digits d.mantissa ((10 : Int) ^ d.exponent)

/-- CacheService.generateWeatherKey with an explicit `type` argument:
`weather_<type>_<lat.toFixed(4)>_<lng.toFixed(4)>`. -/
def generateWeatherKey (lat lng : Dec) (type : String) : String :=
  "weather_" ++ type ++ "_" ++ Dec.toFixed 4 lat ++ "_" ++ Dec.toFixed 4 lng

/-- CacheService.generateWeatherKey with the `type` parameter left to its
default `'current'`. -/
def generateWeatherKeyDefault (lat lng : Dec) : String :=
  generateWeatherKey lat lng "current"

/-- A public memory-tier operation, for quantifying over call sequences. -/
inductive MOp where
  | setOp (key data : String) (ttl : Int)
  | getOp (key : String)
  | hasOp (key : String)
  | deleteOp (key : String)
  | clearOp
deriving Repr, DecidableEq

/-- Run one memory-tier operation at clock value `now`; `none` models a
diverging eviction loop inside `set`. -/
def runOp (st : MemoryCache) (now : Int) : MOp → Option MemoryCache
  | .setOp k d ttl => st.set now k d ttl
  | .getOp k => some (st.get now k).2
  | .hasOp k => some (st.has now k).2
  | .deleteOp k => some (st.delete k)
  | .clearOp => some st.clear

/-- Run a sequence of memory-tier operations, each with its own clock
value. -/
def runOps : List (Int × MOp) → MemoryCache → Option MemoryCache
  | [], st => some st
  | (now, op) :: rest, st =>
    match runOp st now op with
    | none => none
    | some st' => runOps rest st'

/-- One `set` call of a sequence (its clock value and arguments). -/
structure SetCall where
  now : Int
  key : String
  data : String
  ttl : Int
deriving Repr, DecidableEq

/-- Run a sequence of memory-tier `set` calls. -/
def runSets : List SetCall → MemoryCache → Option MemoryCache
  | [], st => some st
  | c :: rest, st =>
    match st.set c.now c.key c.data c.ttl with
    | none => none
    | some st' => runSets rest st'

/-- Sum of the `size` fields of the entries stored in the map. -/
def sizeSum (l : List (String × Entry)) : Int :=
  (l.map fun p => p.2.size).sum

/-- The internal well-formedness of a memory-tier state: the counters
agree with the stored map, keys are unique (a JS `Map`), entry sizes are
nonnegative. -/
def MemInv (st : MemoryCache) : Prop :=
  st.metadata.totalEntries = (st.cache.length : Int) ∧
  st.metadata.totalSize = sizeSum st.cache ∧
  (st.cache.map Prod.fst).Nodup ∧
  ∀ p ∈ st.cache, 0 ≤ p.2.size

/-! Association-list lemmas (the JS `Map` model). -/

theorem assocGet_assocSet_self {β : Type} (k : String) (v : β) (l : List (String × β)) :
    assocGet k (assocSet k v l) = some v := by
  induction l with
  | nil => simp [assocGet, assocSet]
  | cons p t ih =>
    by_cases h : p.1 = k
    · simp [assocSet, h, assocGet]
    · simp [assocSet, h, assocGet, ih]

theorem assocGet_assocSet_ne {β : Type} {k k' : String} (v : β) (l : List (String × β))
    (h : k' ≠ k) : assocGet k' (assocSet k v l) = assocGet k' l := by
  induction l with
  | nil =>
    have h' : ¬ k = k' := fun hn => h (Eq.symm hn)
    simp [assocGet, assocSet, h']
  | cons p t ih =>
    by_cases hp : p.1 = k
    · subst hp
      have h' : ¬ p.1 = k' := fun hn => h (Eq.symm hn)
      simp [assocSet, assocGet, h']
    · simp only [assocSet, hp, if_false, assocGet]
      by_cases hp' : p.1 = k'
      · simp [hp']
      · simp [hp', ih]

theorem assocGet_eq_none_iff {β : Type} (k : String) (l : List (String × β)) :
    assocGet k l = none ↔ k ∉ l.map Prod.fst := by
  induction l with
  | nil => simp [assocGet]
  | cons p t ih =>
    by_cases h : p.1 = k
    · simp [assocGet, h]
    · have h' : ¬ k = p.1 := fun hn => h (Eq.symm hn)
      simp [assocGet, h, ih, h']

theorem assocGet_mem {β : Type} {k : String} {e : β} {l : List (String × β)}
    (h : assocGet k l = some e) : (k, e) ∈ l := by
  induction l with
  | nil => simp [assocGet] at h
  | cons p t ih =>
    by_cases hp : p.1 = k
    · simp only [assocGet, hp, if_true, Option.some.injEq] at h
      obtain ⟨a, b⟩ := p
      simp only at hp h
      subst hp
      subst h
      exact List.mem_cons_self _ _
    · simp only [assocGet, hp, if_false] at h
      exact List.mem_cons_of_mem _ (ih h)

theorem assocGet_of_mem_nodup {β : Type} {k : String} {e : β} {l : List (String × β)}
    (hnd : (l.map Prod.fst).Nodup) (h : (k, e) ∈ l) : assocGet k l = some e := by
  induction l with
  | nil => simp at h
  | cons p t ih =>
    simp only [List.map_cons, List.nodup_cons] at hnd
    rcases List.mem_cons.mp h with h1 | h1
    · subst h1
      simp [assocGet]
    · have hp : p.1 ≠ k := by
        intro hk
        exact hnd.1 (hk ▸ (List.mem_map.mpr ⟨(k, e), h1, rfl⟩))
      simp [assocGet, hp, ih hnd.2 h1]

theorem assocSet_of_get_none {β : Type} {k : String} (v : β) {l : List (String × β)}
    (h : assocGet k l = none) : assocSet k v l = l ++ [(k, v)] := by
  induction l with
  | nil => simp [assocSet]
  | cons p t ih =>
    by_cases hp : p.1 = k
    · simp [assocGet, hp] at h
    · simp only [assocGet, hp, if_false] at h
      simp [assocSet, hp, ih h]

theorem keys_assocSet_of_get_some {β : Type} {k : String} {e : β} (v : β)
    {l : List (String × β)} (h : assocGet k l = some e) :
    (assocSet k v l).map Prod.fst = l.map Prod.fst := by
  induction l with
  | nil => simp [assocGet] at h
  | cons p t ih =>
    by_cases hp : p.1 = k
    · simp [assocSet, hp]
    · simp only [assocGet, hp, if_false] at h
      simp [assocSet, hp, ih h]

theorem length_assocSet_of_get_some {β : Type} {k : String} {e : β} (v : β)
    {l : List (String × β)} (h : assocGet k l = some e) :
    (assocSet k v l).length = l.length := by
  have := congrArg List.length (keys_assocSet_of_get_some v h)
  simpa using this

theorem mem_assocSet {β : Type} {k : String} {v p : _} {l : List (String × β)}
    (h : p ∈ assocSet k v l) : p = (k, v) ∨ p ∈ l := by
  induction l with
  | nil => simpa [assocSet] using h
  | cons q t ih =>
    by_cases hq : q.1 = k
    · simp only [assocSet, hq, if_true] at h
      rcases List.mem_cons.mp h with h1 | h1
      · exact Or.inl h1
      · exact Or.inr (List.mem_cons_of_mem _ h1)
    · simp only [assocSet, hq, if_false] at h
      rcases List.mem_cons.mp h with h1 | h1
      · exact Or.inr (h1 ▸ List.mem_cons_self _ _)
      · rcases ih h1 with h2 | h2
        · exact Or.inl h2
        · exact Or.inr (List.mem_cons_of_mem _ h2)

theorem sizeSum_cons (p : String × Entry) (t : List (String × Entry)) :
    sizeSum (p :: t) = p.2.size + sizeSum t := by
  simp [sizeSum]

theorem sizeSum_assocSet_of_get_some {k : String} {e : Entry} (v : Entry)
    {l : List (String × Entry)} (h : assocGet k l = some e) :
    sizeSum (assocSet k v l) = sizeSum l - e.size + v.size := by
  induction l with
  | nil => simp [assocGet] at h
  | cons p t ih =>
    by_cases hp : p.1 = k
    · simp only [assocGet, hp, if_true, Option.some.injEq] at h
      subst h
      simp only [assocSet, hp, if_true, sizeSum_cons]
      ring
    · simp only [assocGet, hp, if_false] at h
      simp only [assocSet, hp, if_false, sizeSum_cons, ih h]
      ring

theorem sizeSum_append (l1 l2 : List (String × Entry)) :
    sizeSum (l1 ++ l2) = sizeSum l1 + sizeSum l2 := by
  simp [sizeSum]

theorem sizeSum_nonneg {l : List (String × Entry)}
    (h : ∀ p ∈ l, 0 ≤ p.2.size) : 0 ≤ sizeSum l := by
  induction l with
  | nil => simp [sizeSum]
  | cons p t ih =>
    rw [sizeSum_cons]
    have h1 := h p (List.mem_cons_self _ _)
    have h2 := ih fun q hq => h q (List.mem_cons_of_mem _ hq)
    omega

theorem assocErase_sublist {β : Type} (k : String) (l : List (String × β)) :
    List.Sublist (assocErase k l) l := by
  induction l with
  | nil => simp [assocErase]
  | cons p t ih =>
    by_cases hp : p.1 = k
    · simpa [assocErase, hp] using ih.cons p
    · simpa [assocErase, hp] using ih.cons₂ p

theorem assocErase_of_not_mem {β : Type} {k : String} {l : List (String × β)}
    (h : k ∉ l.map Prod.fst) : assocErase k l = l := by
  induction l with
  | nil => simp [assocErase]
  | cons p t ih =>
    simp only [List.map_cons, List.mem_cons] at h
    push_neg at h
    have hp : p.1 ≠ k := fun hk => h.1 (Eq.symm hk)
    simp [assocErase, hp, ih h.2]

theorem assocGet_assocErase_self {β : Type} (k : String) (l : List (String × β)) :
    assocGet k (assocErase k l) = none := by
  induction l with
  | nil => simp [assocErase, assocGet]
  | cons p t ih =>
    by_cases hp : p.1 = k
    · simp [assocErase, hp, ih]
    · simp [assocErase, hp, assocGet, ih]

theorem length_assocErase_of_get_some {β : Type} {k : String} {e : β}
    {l : List (String × β)} (hnd : (l.map Prod.fst).Nodup)
    (h : assocGet k l = some e) : (assocErase k l).length + 1 = l.length := by
  induction l with
  | nil => simp [assocGet] at h
  | cons p t ih =>
    simp only [List.map_cons, List.nodup_cons] at hnd
    by_cases hp : p.1 = k
    · have : k ∉ t.map Prod.fst := hp ▸ hnd.1
      simp [assocErase, hp, assocErase_of_not_mem this]
    · simp only [assocGet, hp, if_false] at h
      simp [assocErase, hp, ih hnd.2 h]

theorem sizeSum_assocErase_of_get_some {k : String} {e : Entry}
    {l : List (String × Entry)} (hnd : (l.map Prod.fst).Nodup)
    (h : assocGet k l = some e) :
    sizeSum (assocErase k l) = sizeSum l - e.size := by
  induction l with
  | nil => simp [assocGet] at h
  | cons p t ih =>
    simp only [List.map_cons, List.nodup_cons] at hnd
    by_cases hp : p.1 = k
    · simp only [assocGet, hp, if_true, Option.some.injEq] at h
      subst h
      have : k ∉ t.map Prod.fst := hp ▸ hnd.1
      simp only [assocErase, hp, if_true, assocErase_of_not_mem this, sizeSum_cons]
      ring
    · simp only [assocGet, hp, if_false] at h
      simp only [assocErase, hp, if_false, sizeSum_cons, ih hnd.2 h]
      ring

/-! The `evictLeastRecentlyUsed` scan: characterization of the fold. -/

theorem foldl_pickStep_char (l : List (String × Entry)) : ∀ a : Option String × Int,
    (l.foldl pickStep a = a ∧ ∀ p ∈ l, a.2 ≤ p.2.timestamp) ∨
    (∃ l₁ k e l₂, l = l₁ ++ (k, e) :: l₂ ∧ l.foldl pickStep a = (some k, e.timestamp) ∧
      e.timestamp < a.2 ∧ (∀ p ∈ l₁, e.timestamp < p.2.timestamp) ∧
      (∀ p ∈ l₂, e.timestamp ≤ p.2.timestamp)) := by
  induction l with
  | nil => intro a; left; simp
  | cons q t ih =>
    intro a
    by_cases h : q.2.timestamp < a.2
    · have hstep : pickStep a q = (some q.1, q.2.timestamp) := by simp [pickStep, h]
      rcases ih (some q.1, q.2.timestamp) with ⟨heq, hall⟩ | ⟨t₁, k, e, t₂, ht, heq, hlt, h₁, h₂⟩
      · right
        refine ⟨[], q.1, q.2, t, by simp, ?_, h, by simp, ?_⟩
        · simp [List.foldl_cons, hstep, heq]
        · intro p hp
          simpa using hall p hp
      · right
        refine ⟨q :: t₁, k, e, t₂, by simp [ht], ?_, ?_, ?_, h₂⟩
        · simp [List.foldl_cons, hstep, heq]
        · exact lt_trans (by simpa using hlt) h
        · intro p hp
          rcases List.mem_cons.mp hp with h3 | h3
          · subst h3
            simpa using hlt
          · exact h₁ p h3
    · have hstep : pickStep a q = a := by simp [pickStep, h]
      rcases ih a with ⟨heq, hall⟩ | ⟨t₁, k, e, t₂, ht, heq, hlt, h₁, h₂⟩
      · left
        constructor
        · simp [List.foldl_cons, hstep, heq]
        · intro p hp
          rcases List.mem_cons.mp hp with h3 | h3
          · subst h3
            exact not_lt.mp h
          · exact hall p h3
      · right
        refine ⟨q :: t₁, k, e, t₂, by simp [ht], ?_, hlt, ?_, h₂⟩
        · simp [List.foldl_cons, hstep, heq]
        · intro p hp
          rcases List.mem_cons.mp hp with h3 | h3
          · subst h3
            exact lt_of_lt_of_le hlt (not_lt.mp h)
          · exact h₁ p h3

/-- The entry at `k` is a least-timestamp entry of the map, strictly below
`now`, and the first such entry in iteration (insertion) order. -/
def IsFirstOldest (now : Int) (l : List (String × Entry)) (k : String) (e : Entry) : Prop :=
  ∃ l₁ l₂, l = l₁ ++ (k, e) :: l₂ ∧ e.timestamp < now ∧
    (∀ p ∈ l, e.timestamp ≤ p.2.timestamp) ∧
    (∀ p ∈ l₁, e.timestamp < p.2.timestamp)

theorem pickOldest_spec {now : Int} {l : List (String × Entry)} {k : String}
    (h : (pickOldest now l).1 = some k) :
    ∃ e, IsFirstOldest now l k e := by
  rcases foldl_pickStep_char l (none, now) with ⟨heq, _⟩ | ⟨l₁, k', e, l₂, hl, heq, hlt, h₁, h₂⟩
  · rw [pickOldest, heq] at h
    simp at h
  · rw [pickOldest, heq] at h
    simp only at h
    obtain rfl : k' = k := by simpa using h
    refine ⟨e, l₁, l₂, hl, by simpa using hlt, ?_, h₁⟩
    intro p hp
    rw [hl] at hp
    rcases List.mem_append.mp hp with h3 | h3
    · exact le_of_lt (h₁ p h3)
    · rcases List.mem_cons.mp h3 with h4 | h4
      · subst h4
        exact le_refl _
      · exact h₂ p h4

/-! Invariant preservation. -/

theorem estimateSize_nonneg (d : String) : 0 ≤ estimateSize d := by
  simp [estimateSize]

theorem memInv_empty : MemInv emptyMemoryCache := by
  refine ⟨rfl, rfl, ?_, ?_⟩ <;> simp [emptyMemoryCache, sizeSum]

theorem delete_spec {st : MemoryCache} (k : String) (h : MemInv st) :
    MemInv (st.delete k) ∧
    (st.delete k).metadata.totalSize ≤ st.metadata.totalSize ∧
    (st.delete k).metadata.totalEntries ≤ st.metadata.totalEntries := by
  obtain ⟨he, hs, hnd, hnn⟩ := h
  unfold MemoryCache.delete
  cases hget : assocGet k st.cache with
  | none => exact ⟨⟨he, hs, hnd, hnn⟩, le_refl _, le_refl _⟩
  | some e =>
    have hlen := length_assocErase_of_get_some hnd hget
    have hsum := sizeSum_assocErase_of_get_some hnd hget
    have hmem := assocGet_mem hget
    have hsize : 0 ≤ e.size := hnn (k, e) hmem
    refine ⟨⟨?_, ?_, ?_, ?_⟩, ?_, ?_⟩
    · dsimp only
      omega
    · dsimp only
      rw [hsum, hs]
    · exact ((assocErase_sublist k st.cache).map Prod.fst).nodup hnd
    · intro p hp
      exact hnn p ((assocErase_sublist k st.cache).subset hp)
    · dsimp only
      omega
    · dsimp only
      omega

theorem evictLRU_spec {st : MemoryCache} (now : Int) (h : MemInv st) :
    MemInv (st.evictLeastRecentlyUsed now) ∧
    (st.evictLeastRecentlyUsed now).metadata.totalSize ≤ st.metadata.totalSize ∧
    (st.evictLeastRecentlyUsed now).metadata.totalEntries ≤ st.metadata.totalEntries := by
  unfold MemoryCache.evictLeastRecentlyUsed
  cases hp : (pickOldest now st.cache).1 with
  | none => exact ⟨h, le_refl _, le_refl _⟩
  | some k =>
    obtain ⟨hinv, h1, h2⟩ := delete_spec k h
    obtain ⟨hie, his, hind, hinn⟩ := hinv
    exact ⟨⟨hie, his, hind, hinn⟩, h1, h2⟩

theorem evictWhile_spec {now : Int} {g : MemoryCache → Bool} :
    ∀ (fuel : Nat) (st st' : MemoryCache), MemInv st →
    evictWhile now g fuel st = some st' →
    MemInv st' ∧ st'.metadata.totalSize ≤ st.metadata.totalSize ∧
    st'.metadata.totalEntries ≤ st.metadata.totalEntries ∧ g st' = false := by
  intro fuel
  induction fuel with
  | zero =>
    intro st st' h hrun
    unfold evictWhile at hrun
    by_cases hg : g st
    · simp [hg] at hrun
    · simp only [hg, Bool.false_eq_true, if_false, Option.some.injEq] at hrun
      subst hrun
      exact ⟨h, le_refl _, le_refl _, by simpa using hg⟩
  | succ n ih =>
    intro st st' h hrun
    unfold evictWhile at hrun
    by_cases hg : g st
    · simp only [hg, if_true] at hrun
      by_cases hlen :
          (st.evictLeastRecentlyUsed now).cache.length < st.cache.length
      · simp only [hlen, if_true] at hrun
        obtain ⟨h1, h2, h3⟩ := evictLRU_spec now h
        obtain ⟨h4, h5, h6, h7⟩ := ih _ st' h1 hrun
        exact ⟨h4, le_trans h5 h2, le_trans h6 h3, h7⟩
      · simp [hlen] at hrun
    · simp only [hg, Bool.false_eq_true, if_false, Option.some.injEq] at hrun
      subst hrun
      exact ⟨h, le_refl _, le_refl _, by simpa using hg⟩

theorem evictIfNeeded_spec {st st1 : MemoryCache} {now s : Int} (h : MemInv st)
    (hrun : evictIfNeeded st now s = some st1) :
    MemInv st1 ∧
    (st1.metadata.totalSize + s ≤ MAX_MEMORY_SIZE ∨ st1.metadata.totalSize ≤ 0) ∧
    (st1.metadata.totalEntries < MAX_ENTRIES ∨ st1.metadata.totalEntries ≤ 0) := by
  unfold evictIfNeeded at hrun
  cases h1 : evictWhile now (sizeGuard s) (st.cache.length + 1) st with
  | none => rw [h1] at hrun; simp at hrun
  | some stA =>
    rw [h1] at hrun
    obtain ⟨hA, _, _, hAg⟩ := evictWhile_spec _ _ _ h h1
    obtain ⟨h2, h2s, h2e, h2g⟩ := evictWhile_spec _ _ _ hA hrun
    refine ⟨h2, ?_, ?_⟩
    · simp only [sizeGuard, Bool.and_eq_false_iff, decide_eq_false_iff_not, not_lt] at hAg
      rcases hAg with hle | hlen
      · left
        omega
      · right
        obtain ⟨_, hAs, _, _⟩ := hA
        have hnil : stA.cache = [] := List.eq_nil_of_length_eq_zero (by omega)
        have : stA.metadata.totalSize = 0 := by
          rw [hAs, hnil]
          simp [sizeSum]
        omega
    · simp only [countGuard, Bool.and_eq_false_iff, decide_eq_false_iff_not, not_le,
        not_lt] at h2g
      rcases h2g with hlt | hlen
      · left
        exact hlt
      · right
        obtain ⟨h2len, _, _, _⟩ := h2
        have hnil : st1.cache.length = 0 := by omega
        omega

theorem set_spec {st st' : MemoryCache} {now : Int} {k d : String} {ttl : Int}
    (h : MemInv st) (hrun : st.set now k d ttl = some st') :
    MemInv st' ∧ st'.metadata.totalEntries ≤ MAX_ENTRIES ∧
    (estimateSize d ≤ MAX_MEMORY_SIZE → st'.metadata.totalSize ≤ MAX_MEMORY_SIZE) := by
  have hME : MAX_ENTRIES = 100 := rfl
  have hes : 0 ≤ estimateSize d := estimateSize_nonneg d
  simp only [MemoryCache.set] at hrun
  cases hEv : evictIfNeeded st now (estimateSize d) with
  | none => rw [hEv] at hrun; simp at hrun
  | some st1 =>
    rw [hEv] at hrun
    simp only [Option.some.injEq] at hrun
    obtain ⟨h1, hdisj, hedisj⟩ := evictIfNeeded_spec h hEv
    obtain ⟨h1e, h1s, h1nd, h1nn⟩ := h1
    have h1snn : 0 ≤ st1.metadata.totalSize := h1s ▸ sizeSum_nonneg h1nn
    have h1enn : 0 ≤ st1.metadata.totalEntries := h1e ▸ Int.natCast_nonneg _
    cases hOld : assocGet k st1.cache with
    | some old =>
      rw [hOld] at hrun
      subst hrun
      have holdnn : 0 ≤ old.size := h1nn (k, old) (assocGet_mem hOld)
      have hlen := length_assocSet_of_get_some
        (v := (⟨d, now, ttl, estimateSize d, 0, k⟩ : Entry)) hOld
      have hsum := sizeSum_assocSet_of_get_some
        (v := (⟨d, now, ttl, estimateSize d, 0, k⟩ : Entry)) hOld
      have hkeys := keys_assocSet_of_get_some
        (v := (⟨d, now, ttl, estimateSize d, 0, k⟩ : Entry)) hOld
      refine ⟨⟨?_, ?_, ?_, ?_⟩, ?_, ?_⟩
      · dsimp only
        omega
      · dsimp only
        rw [hsum, h1s]
      · dsimp only
        rw [hkeys]
        exact h1nd
      · intro p hp
        dsimp only at hp
        rcases mem_assocSet hp with h3 | h3
        · subst h3
          exact hes
        · exact h1nn p h3
      · dsimp only
        rcases hedisj with h4 | h4 <;> omega
      · intro hsize
        dsimp only
        rcases hdisj with h4 | h4 <;> omega
    | none =>
      rw [hOld] at hrun
      subst hrun
      have happ := assocSet_of_get_none (⟨d, now, ttl, estimateSize d, 0, k⟩ : Entry) hOld
      have hnotmem : k ∉ st1.cache.map Prod.fst := (assocGet_eq_none_iff _ _).mp hOld
      refine ⟨⟨?_, ?_, ?_, ?_⟩, ?_, ?_⟩
      · dsimp only
        rw [happ]
        simp only [List.length_append, List.length_cons, List.length_nil]
        omega
      · dsimp only
        rw [happ, sizeSum_append, h1s]
        simp [sizeSum]
      · dsimp only
        rw [happ]
        simp only [List.map_append, List.map_cons, List.map_nil]
        rw [List.nodup_append]
        exact ⟨h1nd, List.nodup_singleton _, by simpa using hnotmem⟩
      · intro p hp
        dsimp only at hp
        rcases mem_assocSet hp with h3 | h3
        · subst h3
          exact hes
        · exact h1nn p h3
      · dsimp only
        rcases hedisj with h4 | h4 <;> omega
      · intro hsize
        dsimp only
        rcases hdisj with h4 | h4 <;> omega

theorem get_memInv {st : MemoryCache} (now : Int) (k : String) (h : MemInv st) :
    MemInv (st.get now k).2 := by
  obtain ⟨he, hs, hnd, hnn⟩ := h
  unfold MemoryCache.get
  cases hget : assocGet k st.cache with
  | none => exact ⟨he, hs, hnd, hnn⟩
  | some e =>
    by_cases hexp : now - e.timestamp > e.ttl
    · simp only [hexp, if_true]
      obtain ⟨⟨h1, h2, h3, h4⟩, _, _⟩ := delete_spec k ⟨he, hs, hnd, hnn⟩
      exact ⟨h1, h2, h3, h4⟩
    · simp only [hexp, if_false]
      have hlen := length_assocSet_of_get_some (v := { e with hits := e.hits + 1 }) hget
      have hsum := sizeSum_assocSet_of_get_some (v := { e with hits := e.hits + 1 }) hget
      have hkeys := keys_assocSet_of_get_some (v := { e with hits := e.hits + 1 }) hget
      refine ⟨?_, ?_, ?_, ?_⟩
      · dsimp only
        omega
      · dsimp only
        rw [hsum, hs]
        dsimp only
        ring
      · dsimp only
        rw [hkeys]
        exact hnd
      · intro p hp
        dsimp only at hp
        rcases mem_assocSet hp with h3 | h3
        · subst h3
          exact hnn (k, e) (assocGet_mem hget)
        · exact hnn p h3

theorem has_memInv {st : MemoryCache} (now : Int) (k : String) (h : MemInv st) :
    MemInv (st.has now k).2 := by
  unfold MemoryCache.has
  cases hget : assocGet k st.cache with
  | none => exact h
  | some e =>
    by_cases hexp : now - e.timestamp > e.ttl
    · simp only [hexp, if_true]
      exact (delete_spec k h).1
    · simp only [hexp, if_false]
      exact h

theorem runOp_memInv {st st' : MemoryCache} {now : Int} {op : MOp} (h : MemInv st)
    (hrun : runOp st now op = some st') : MemInv st' := by
  cases op with
  | setOp k d ttl => exact (set_spec h hrun).1
  | getOp k =>
    simp only [runOp, Option.some.injEq] at hrun
    exact hrun ▸ get_memInv now k h
  | hasOp k =>
    simp only [runOp, Option.some.injEq] at hrun
    exact hrun ▸ has_memInv now k h
  | deleteOp k =>
    simp only [runOp, Option.some.injEq] at hrun
    exact hrun ▸ (delete_spec k h).1
  | clearOp =>
    simp only [runOp, MemoryCache.clear, Option.some.injEq] at hrun
    exact hrun ▸ memInv_empty

theorem runOps_memInv : ∀ (ops : List (Int × MOp)) (st st' : MemoryCache),
    MemInv st → runOps ops st = some st' → MemInv st' := by
  intro ops
  induction ops with
  | nil =>
    intro st st' h hrun
    simp only [runOps, Option.some.injEq] at hrun
    exact hrun ▸ h
  | cons c rest ih =>
    intro st st' h hrun
    obtain ⟨now, op⟩ := c
    simp only [runOps] at hrun
    cases h1 : runOp st now op with
    | none => rw [h1] at hrun; simp at hrun
    | some st1 =>
      rw [h1] at hrun
      exact ih st1 st' (runOp_memInv h h1) hrun

theorem runSets_entries : ∀ (calls : List SetCall) (st st' : MemoryCache),
    MemInv st → st.metadata.totalEntries ≤ MAX_ENTRIES →
    runSets calls st = some st' →
    MemInv st' ∧ st'.metadata.totalEntries ≤ MAX_ENTRIES := by
  intro calls
  induction calls with
  | nil =>
    intro st st' h hte hrun
    simp only [runSets, Option.some.injEq] at hrun
    exact hrun ▸ ⟨h, hte⟩
  | cons c rest ih =>
    intro st st' h _ hrun
    simp only [runSets] at hrun
    cases h1 : st.set c.now c.key c.data c.ttl with
    | none => rw [h1] at hrun; simp at hrun
    | some st1 =>
      rw [h1] at hrun
      obtain ⟨h2, h3, _⟩ := set_spec h h1
      exact ih st1 st' h2 h3 hrun

theorem runSets_size : ∀ (calls : List SetCall) (st st' : MemoryCache),
    MemInv st → st.metadata.totalSize ≤ MAX_MEMORY_SIZE →
    (∀ c ∈ calls, estimateSize c.data ≤ MAX_MEMORY_SIZE) →
    runSets calls st = some st' →
    MemInv st' ∧ st'.metadata.totalSize ≤ MAX_MEMORY_SIZE := by
  intro calls
  induction calls with
  | nil =>
    intro st st' h hts _ hrun
    simp only [runSets, Option.some.injEq] at hrun
    exact hrun ▸ ⟨h, hts⟩
  | cons c rest ih =>
    intro st st' h _ hall hrun
    simp only [runSets] at hrun
    cases h1 : st.set c.now c.key c.data c.ttl with
    | none => rw [h1] at hrun; simp at hrun
    | some st1 =>
      rw [h1] at hrun
      obtain ⟨h2, _, h3⟩ := set_spec h h1
      exact ih st1 st' h2 (h3 (hall c (List.mem_cons_self _ _)))
        (fun q hq => hall q (List.mem_cons_of_mem _ hq)) hrun

/-! Round-trip and expiry lemmas. -/

theorem set_lookup {st st' : MemoryCache} {now : Int} {k d : String} {ttl : Int}
    (hrun : st.set now k d ttl = some st') :
    assocGet k st'.cache = some ⟨d, now, ttl, estimateSize d, 0, k⟩ := by
  simp only [MemoryCache.set] at hrun
  cases hEv : evictIfNeeded st now (estimateSize d) with
  | none => rw [hEv] at hrun; simp at hrun
  | some st1 =>
    rw [hEv] at hrun
    simp only [Option.some.injEq] at hrun
    cases hOld : assocGet k st1.cache with
    | some old =>
      rw [hOld] at hrun
      subst hrun
      exact assocGet_assocSet_self k _ _
    | none =>
      rw [hOld] at hrun
      subst hrun
      exact assocGet_assocSet_self k _ _

theorem get_after_set {st st' : MemoryCache} {now now' : Int} {k d : String} {ttl : Int}
    (hrun : st.set now k d ttl = some st') (hfresh : now' - now ≤ ttl) :
    (st'.get now' k).1 = some d := by
  have hlook := set_lookup hrun
  unfold MemoryCache.get
  rw [hlook]
  simp only
  rw [if_neg (by simpa using not_lt.mpr hfresh)]

theorem get_of_absent {st : MemoryCache} {k : String} (now : Int)
    (h : assocGet k st.cache = none) : (st.get now k).1 = none := by
  unfold MemoryCache.get
  rw [h]

theorem get_expired {st : MemoryCache} {k : String} {e : Entry} {now : Int}
    (hget : assocGet k st.cache = some e) (hexp : now - e.timestamp > e.ttl) :
    (st.get now k).1 = none ∧
    assocGet k (st.get now k).2.cache = none ∧
    ((st.get now k).2.get now k).1 = none ∧
    (st.has now k).1 = false := by
  have hdel : (st.delete k).cache = assocErase k st.cache := by
    unfold MemoryCache.delete
    rw [hget]
  have hmain : st.get now k =
      (none, { st.delete k with metadata := { (st.delete k).metadata with
        misses := (st.delete k).metadata.misses + 1 } }) := by
    unfold MemoryCache.get
    rw [hget]
    simp [hexp]
  have hgone : assocGet k (st.get now k).2.cache = none := by
    rw [hmain]
    dsimp only
    rw [hdel]
    exact assocGet_assocErase_self k st.cache
  refine ⟨by rw [hmain], hgone, get_of_absent now hgone, ?_⟩
  unfold MemoryCache.has
  rw [hget]
  simp [hexp]

theorem pset_pget_roundtrip {items : List (String × StoreVal)} {md : PMeta}
    {k v : String} {ttl now now' : Int}
    (hkey : STORAGE_PREFIX_STR ++ k ≠ METADATA_KEY)
    (hfresh : now' - now ≤ ttl) :
    ((PersistentCache.set ⟨⟨items, false⟩, true, some md⟩ now k v ttl).get now' k).1
      = some v := by
  simp only [PersistentCache.set, Bool.not_true, Bool.false_eq_true, if_false,
    LocalStorage.setItem, PersistentCache.saveMetadata, PersistentCache.get,
    LocalStorage.getItem]
  rw [assocGet_assocSet_ne _ _ hkey, assocGet_assocSet_self]
  simp only
  rw [if_neg (by simpa using not_lt.mpr hfresh)]

/-! Rounding error bound for the derived statistics. -/

theorem roundHalfUpDiv_close {a b : Int} (hb : 0 < b) :
    2 * |roundHalfUpDiv a b * b - a| ≤ b := by
  have h2b : (0 : Int) < 2 * b := by omega
  have hdm : 2 * b * Int.ediv (2 * a + b) (2 * b) + Int.emod (2 * a + b) (2 * b)
      = 2 * a + b := Int.ediv_add_emod _ _
  have hmn : 0 ≤ Int.emod (2 * a + b) (2 * b) :=
    Int.emod_nonneg _ (by omega)
  have hml : Int.emod (2 * a + b) (2 * b) < 2 * b :=
    Int.emod_lt_of_pos _ h2b
  have key : 2 * (roundHalfUpDiv a b * b - a) = b - Int.emod (2 * a + b) (2 * b) := by
    unfold roundHalfUpDiv
    linear_combination hdm
  have habs : 2 * |roundHalfUpDiv a b * b - a| = |2 * (roundHalfUpDiv a b * b - a)| := by
    rw [abs_mul]
    norm_num
  rw [habs, key, abs_le]
  omega

/-! The oversized-entry scenario. -/

theorem utf8ByteSize_cons (c : Char) (l : List Char) :
    (String.mk (c :: l)).utf8ByteSize = (String.mk l).utf8ByteSize + c.utf8Size := rfl

theorem utf8_replicate (n : Nat) :
    (String.mk (List.replicate n 'a')).utf8ByteSize = n := by
  induction n with
  | zero => rfl
  | succ m ih =>
    rw [List.replicate_succ, utf8ByteSize_cons, ih,
      show ('a').utf8Size = 1 from rfl]

/-- A payload whose serialization is one byte larger than the configured
memory ceiling. -/
def bigString : String := String.mk (List.replicate 10485761 'a')

theorem estimateSize_bigString : estimateSize bigString = 10485761 := by
  unfold estimateSize bigString
  rw [utf8_replicate]
  rfl

theorem set_empty_eq (now : Int) (k d : String) (ttl : Int) :
    emptyMemoryCache.set now k d ttl =
      some ⟨[(k, ⟨d, now, ttl, estimateSize d, 0, k⟩)], ⟨estimateSize d, 1, 0, 0, 0⟩⟩ := by
  simp [MemoryCache.set, evictIfNeeded, evictWhile, sizeGuard, countGuard,
    emptyMemoryCache, assocGet, assocSet, MAX_ENTRIES]

theorem runSets_one (now : Int) (k d : String) (ttl : Int) (st : MemoryCache) :
    runSets [⟨now, k, d, ttl⟩] st =
      match st.set now k d ttl with
      | none => none
      | some st' => some st' := by
  cases h : st.set now k d ttl with
  | none => simp only [runSets, h]
  | some st1 => simp only [runSets, h]

/-! Claim theorems. -/

/-- Storage whose every write throws (localStorage disabled / over quota),
so the availability probe at construction fails. -/
def brokenStorage : LocalStorage := ⟨[], true⟩

/-- C1: the claim states that no exception from the cache subsystem ever
reaches the caller and in particular that `CacheService.getStats()` never
throws, even when the persistent storage availability probe failed at
construction.  The code violates this: after a failed probe,
`loadMetadata` returns early and leaves `this.metadata` unassigned, and
`getStats` then reads `metadata.keys` without a guard, throwing a
TypeError.  This theorem evaluates the model at that failing input. -/
theorem C1_getStats_throws :
    (CacheService.construct 0 brokenStorage).persistentCache.storageAvailable = false ∧
    (CacheService.construct 0 brokenStorage).getStats = Except.error JsError.typeError :=
  ⟨rfl, rfl⟩

/-- The memory-cache state produced by one oversized `set` on an empty
cache: its `totalSize` already exceeds `MAX_MEMORY_SIZE`. -/
def oversizedResult : MemoryCache :=
  ⟨[("k", ⟨bigString, 0, 0, 10485761, 0, "k"⟩)], ⟨10485761, 1, 0, 0, 0⟩⟩

/-- C2 counterexample: a single `set` whose payload serializes to one byte
more than the 10 MiB ceiling leaves `totalSize` above the ceiling — the
eviction loop stops when the cache is empty and the entry is inserted
regardless, so the claimed size bound fails for arbitrary values. -/
theorem C2_counterexample :
    runSets [⟨0, "k", bigString, 0⟩] emptyMemoryCache = some oversizedResult ∧
    oversizedResult.metadata.totalSize > MAX_MEMORY_SIZE := by
  constructor
  · have h1 : emptyMemoryCache.set 0 "k" bigString 0 = some oversizedResult := by
      rw [set_empty_eq, estimateSize_bigString]
      rfl
    rw [runSets_one, h1]
  · decide

/-- C2 (amended): starting from an empty memory cache, after any
terminating sequence of `set` calls, `totalEntries` never exceeds
`MAX_ENTRIES` — unconditionally; and provided every payload's estimated
size is at most `MAX_MEMORY_SIZE`, `totalSize` never exceeds
`MAX_MEMORY_SIZE`. -/
theorem C2_bounded (calls : List SetCall) (st' : MemoryCache)
    (hrun : runSets calls emptyMemoryCache = some st') :
    st'.metadata.totalEntries ≤ MAX_ENTRIES ∧
    ((∀ c ∈ calls, estimateSize c.data ≤ MAX_MEMORY_SIZE) →
      st'.metadata.totalSize ≤ MAX_MEMORY_SIZE) :=
  ⟨(runSets_entries calls _ _ memInv_empty (by decide) hrun).2,
   fun hsizes => (runSets_size calls _ _ memInv_empty (by decide) hsizes hrun).2⟩

/-- The state after the two `set` calls of the C2 witness. -/
def c2Final : MemoryCache :=
  ⟨[("a", ⟨"xy", 0, 1000, 2, 0, "a"⟩), ("b", ⟨"z", 1, 1000, 1, 0, "b"⟩)], ⟨3, 2, 0, 0, 0⟩⟩

/-- Witness for C2: two small `set` calls satisfy both bounds. -/
theorem C2_bounded_witness :
    runSets [⟨0, "a", "xy", 1000⟩, ⟨1, "b", "z", 1000⟩] emptyMemoryCache = some c2Final ∧
    c2Final.metadata.totalEntries ≤ MAX_ENTRIES ∧
    c2Final.metadata.totalSize ≤ MAX_MEMORY_SIZE :=
  ⟨by decide,
   (C2_bounded [⟨0, "a", "xy", 1000⟩, ⟨1, "b", "z", 1000⟩] c2Final (by decide)).1,
   (C2_bounded [⟨0, "a", "xy", 1000⟩, ⟨1, "b", "z", 1000⟩] c2Final (by decide)).2 (by decide)⟩

/-- A reachable memory-cache state at clock value 5: one hundred entries,
all inserted at timestamp 5 (one hundred `set` calls of the one-byte
payload `"d"` within the same clock millisecond). -/
def stuckState : MemoryCache :=
  ⟨(List.range 100).map fun i => (toString i, ⟨"d", 5, 1000000, 1, 0, toString i⟩),
   ⟨100, 100, 0, 0, 0⟩⟩

set_option maxRecDepth 100000 in
/-- C3: the claim states that every cache operation terminates, including
eviction from states in which every stored entry's insertion timestamp
equals the current time.  The code violates this: with the cache at the
entry-count ceiling and every timestamp equal to `Date.now()`, the scan
in `evictLeastRecentlyUsed` (which only considers entries with
`timestamp < Date.now()`) selects nothing and changes nothing, so the
`while` loop in `evictIfNeeded` never terminates.  The model returns
`none` on `set` exactly when that loop diverges. -/
theorem C3_eviction_loop_diverges :
    countGuard stuckState = true ∧
    stuckState.evictLeastRecentlyUsed 5 = stuckState ∧
    stuckState.set 5 "fresh" "d" 1000 = none :=
  ⟨by decide, by decide, by decide⟩

/-- A persistent tier with available, empty storage. -/
def psAvail : PersistentCache := ⟨⟨[], false⟩, true, some ⟨[], 0, 0⟩⟩

/-- C4 counterexample: for the key `"metadata"`, the namespaced storage
key `STORAGE_PREFIX ++ "metadata"` equals `METADATA_KEY`, so
`saveMetadata` (run at the end of `set`) overwrites the just-stored entry
with the metadata index; the immediately following `get` within the ttl
does not return the stored value. -/
theorem C4_counterexample :
    STORAGE_PREFIX_STR ++ "metadata" = METADATA_KEY ∧
    psAvail.storageAvailable = true ∧
    ((psAvail.set 0 "metadata" "v" 1000).get 0 "metadata").1 = none :=
  ⟨rfl, rfl, by decide⟩

/-- C4 (amended): `set(key, v, ttl)` immediately followed by `get(key)`
within `ttl` returns `v`: on the memory tier for every key (whenever the
`set` call terminates), and on the persistent tier with available storage
for every key whose namespaced storage key differs from `METADATA_KEY`
(i.e. every key other than `"metadata"`). -/
theorem C4_roundtrip :
    (∀ (st st' : MemoryCache) (now now' ttl : Int) (k d : String),
      st.set now k d ttl = some st' → now' - now ≤ ttl →
      (st'.get now' k).1 = some d) ∧
    (∀ (items : List (String × StoreVal)) (md : PMeta) (k v : String) (ttl now now' : Int),
      STORAGE_PREFIX_STR ++ k ≠ METADATA_KEY → now' - now ≤ ttl →
      ((PersistentCache.set ⟨⟨items, false⟩, true, some md⟩ now k v ttl).get now' k).1
        = some v) :=
  ⟨fun _ _ _ _ _ _ _ h1 h2 => get_after_set h1 h2,
   fun _ _ _ _ _ _ _ h1 h2 => pset_pget_roundtrip h1 h2⟩

/-- The memory-cache state after `set 0 "a" "xy" 10` on an empty cache. -/
def m4 : MemoryCache := ⟨[("a", ⟨"xy", 0, 10, 2, 0, "a"⟩)], ⟨2, 1, 0, 0, 0⟩⟩

/-- Witness for C4: concrete round-trips on both tiers. -/
theorem C4_roundtrip_witness :
    (m4.get 1 "a").1 = some "xy" ∧
    ((PersistentCache.set ⟨⟨[], false⟩, true, some ⟨[], 0, 0⟩⟩ 0 "k" "v" 1000).get 1 "k").1
      = some "v" :=
  ⟨C4_roundtrip.1 emptyMemoryCache m4 0 1 10 "a" "xy" (by decide) (by decide),
   C4_roundtrip.2 [] ⟨[], 0, 0⟩ "k" "v" 1000 0 1 (by decide) (by decide)⟩

/-- C5: after `set(key, v, ttl)`, once more than `ttl` has elapsed,
`get(key)` returns `null` and removes the entry from the map, so a
repeated `get` returns `null` again; and in general an entry with
`now - timestamp > ttl` is never returned by `get` or `has` (both delete
it on discovery). -/
theorem C5_expiry :
    (∀ (st st' : MemoryCache) (now now' ttl : Int) (k d : String),
      st.set now k d ttl = some st' → now' - now > ttl →
      (st'.get now' k).1 = none ∧
      assocGet k (st'.get now' k).2.cache = none ∧
      ((st'.get now' k).2.get now' k).1 = none) ∧
    (∀ (st : MemoryCache) (k : String) (e : Entry) (now : Int),
      assocGet k st.cache = some e → now - e.timestamp > e.ttl →
      (st.get now k).1 = none ∧ (st.has now k).1 = false) := by
  constructor
  · intro st st' now now' ttl k d h1 h2
    obtain ⟨a, b, c, _⟩ := get_expired (set_lookup h1) (by simpa using h2)
    exact ⟨a, b, c⟩
  · intro st k e now h1 h2
    obtain ⟨a, _, _, d⟩ := get_expired h1 h2
    exact ⟨a, d⟩

/-- Witness for C5: a concrete entry expires and disappears. -/
theorem C5_expiry_witness :
    ((m4.get 20 "a").1 = none ∧
      assocGet "a" (m4.get 20 "a").2.cache = none ∧
      ((m4.get 20 "a").2.get 20 "a").1 = none) ∧
    ((m4.get 20 "a").1 = none ∧ (m4.has 20 "a").1 = false) :=
  ⟨C5_expiry.1 emptyMemoryCache m4 0 20 10 "a" "xy" (by decide) (by decide),
   C5_expiry.2 m4 "a" ⟨"xy", 0, 10, 2, 0, "a"⟩ 20 (by decide) (by decide)⟩

/-- C6: whenever the eviction scan selects a key, the entry at that key
has the smallest insertion timestamp among all stored entries, it is the
first such entry in the map's iteration (insertion) order, and
`evictLeastRecentlyUsed` deletes exactly that entry while counting one
eviction. -/
theorem C6_evicts_first_oldest (st : MemoryCache) (now : Int) (k : String)
    (h : (pickOldest now st.cache).1 = some k) :
    (∃ e, IsFirstOldest now st.cache k e) ∧
    st.evictLeastRecentlyUsed now =
      { st.delete k with metadata :=
        { (st.delete k).metadata with
          evictions := (st.delete k).metadata.evictions + 1 } } := by
  refine ⟨pickOldest_spec h, ?_⟩
  unfold MemoryCache.evictLeastRecentlyUsed
  rw [h]

/-- A two-entry cache whose second entry has the older timestamp. -/
def stC6 : MemoryCache :=
  ⟨[("a", ⟨"d", 5, 9, 1, 0, "a"⟩), ("b", ⟨"d", 3, 9, 1, 0, "b"⟩)], ⟨2, 2, 0, 0, 0⟩⟩

/-- Witness for C6: the scan picks the entry with timestamp 3. -/
theorem C6_evicts_first_oldest_witness :
    (∃ e, IsFirstOldest 10 stC6.cache "b" e) ∧
    stC6.evictLeastRecentlyUsed 10 =
      { stC6.delete "b" with metadata :=
        { (stC6.delete "b").metadata with
          evictions := (stC6.delete "b").metadata.evictions + 1 } } :=
  C6_evicts_first_oldest stC6 10 "b" (by decide)

/-- C7: `CacheService.get` checks the memory tier first and returns its
value on a memory hit (persistent tier untouched); on a memory miss it
consults the persistent tier, and on a persistent hit writes the value
into the memory tier using the memory tier's default ttl
(`WEATHER_DATA`, not the entry's original ttl) before returning it; when
both tiers miss it returns `null`. -/
theorem C7_two_tier_get (cs : CacheService) (now : Int) (key : String) :
    (∀ v, (cs.memoryCache.get now key).1 = some v →
      cs.get now key =
        some (some v, ⟨(cs.memoryCache.get now key).2, cs.persistentCache⟩)) ∧
    ((cs.memoryCache.get now key).1 = none →
      ∀ v, (cs.persistentCache.get now key).1 = some v →
      cs.get now key =
        ((cs.memoryCache.get now key).2.set now key v WEATHER_DATA).map
          (fun m2 => (some v, ⟨m2, (cs.persistentCache.get now key).2⟩))) ∧
    ((cs.memoryCache.get now key).1 = none →
      (cs.persistentCache.get now key).1 = none →
      cs.get now key =
        some (none, ⟨(cs.memoryCache.get now key).2, (cs.persistentCache.get now key).2⟩)) := by
  refine ⟨?_, ?_, ?_⟩
  · intro v h
    simp only [CacheService.get]
    rw [h]
  · intro h v h2
    have hred : cs.get now key =
        match (cs.memoryCache.get now key).2.set now key v WEATHER_DATA with
        | some m2 => some (some v, ⟨m2, (cs.persistentCache.get now key).2⟩)
        | none => none := by
      simp only [CacheService.get]
      rw [h, h2]
    rw [hred]
    cases hset : (cs.memoryCache.get now key).2.set now key v WEATHER_DATA with
    | none => rfl
    | some m2 => rfl
  · intro h h2
    simp only [CacheService.get]
    rw [h, h2]

/-- A service whose memory tier is empty and whose persistent tier holds
the key `"k"`. -/
def cs7 : CacheService :=
  { memoryCache := emptyMemoryCache,
    persistentCache :=
      ⟨⟨[("weather_cache_k", .entryV "v" 0 1000)], false⟩, true, some ⟨["k"], 0, 0⟩⟩ }

/-- Witness for C7: a persistent hit is promoted with the default ttl. -/
theorem C7_two_tier_get_witness :
    cs7.get 5 "k" =
      ((cs7.memoryCache.get 5 "k").2.set 5 "k" "v" WEATHER_DATA).map
        (fun m2 => (some "v", ⟨m2, (cs7.persistentCache.get 5 "k").2⟩)) :=
  (C7_two_tier_get cs7 5 "k").2.1 (by decide) "v" (by decide)

/-- C8: `generateWeatherKey(48.85661, 2.35222, 'forecast')` returns
exactly `"weather_forecast_48.8566_2.3522"`; the function is
deterministic, produces keys of the form
`weather_<type>_<lat to 4 decimals>_<lng to 4 decimals>`, and the type
argument defaults to `'current'`. -/
theorem C8_weather_key :
    generateWeatherKey ⟨4885661, 5⟩ ⟨235222, 5⟩ "forecast"
      = "weather_forecast_48.8566_2.3522" ∧
    (∀ (lat lng : Dec) (ty : String), generateWeatherKey lat lng ty =
      "weather_" ++ ty ++ "_" ++ Dec.toFixed 4 lat ++ "_" ++ Dec.toFixed 4 lng) ∧
    (∀ lat lng : Dec, generateWeatherKeyDefault lat lng = generateWeatherKey lat lng "current") ∧
    (∀ (lat lng : Dec) (ty : String),
      generateWeatherKey lat lng ty = generateWeatherKey lat lng ty) :=
  ⟨by decide, fun _ _ _ => rfl, fun _ _ => rfl, fun _ _ _ => rfl⟩

/-- A reachable cache state with `totalSize 3`, `totalEntries 2`,
`hits 1`, `misses 2`. -/
def stC9 : MemoryCache :=
  ⟨[("a", ⟨"x", 0, 1000, 1, 0, "a"⟩), ("b", ⟨"xy", 0, 1000, 2, 0, "b"⟩)], ⟨3, 2, 1, 2, 0⟩⟩

/-- C9 counterexample: `getStats` returns
`averageEntrySize = Math.round(totalSize/totalEntries)`, not the exact
quotient the claim states: here it returns 2 while
`totalSize/totalEntries = 3/2` (2 · totalEntries ≠ totalSize). -/
theorem C9_counterexample :
    stC9.getStats.averageEntrySize = 2 ∧
    stC9.getStats.averageEntrySize * stC9.metadata.totalEntries ≠ stC9.metadata.totalSize :=
  ⟨by decide, by decide⟩

/-- C9 (amended): `getStats` returns `hitRate` equal to the percentage
`100·hits/(hits+misses)` rendered by `toFixed(2)` with a `%` sign
(`"0%"` when there has been no access), and `averageEntrySize` equal to
`totalSize/totalEntries` rounded to the nearest integer — within 1/2 of
the exact quotient, stated integrally as
`2·|avg·totalEntries − totalSize| ≤ totalEntries` — and 0 when the cache
is empty. -/
theorem C9_derived_stats (st : MemoryCache) :
    (st.metadata.hits + st.metadata.misses ≤ 0 → st.getStats.hitRate = "0%") ∧
    (0 < st.metadata.hits + st.metadata.misses →
      st.getStats.hitRate =
        jsToFixedFrac 2 (st.metadata.hits * 100)
          (st.metadata.hits + st.metadata.misses) ++ "%") ∧
    (st.metadata.totalEntries ≤ 0 → st.getStats.averageEntrySize = 0) ∧
    (0 < st.metadata.totalEntries →
      2 * |st.getStats.averageEntrySize * st.metadata.totalEntries - st.metadata.totalSize|
        ≤ st.metadata.totalEntries) := by
  refine ⟨?_, ?_, ?_, ?_⟩
  · intro h
    simp only [MemoryCache.getStats]
    rw [if_neg (by omega)]
  · intro h
    simp only [MemoryCache.getStats]
    rw [if_pos (by omega)]
  · intro h
    simp only [MemoryCache.getStats]
    rw [if_neg (by omega)]
  · intro h
    simp only [MemoryCache.getStats]
    rw [if_pos (by omega)]
    exact roundHalfUpDiv_close h

/-- Witness for C9: the derived statistics of a concrete state. -/
theorem C9_derived_stats_witness :
    0 < stC9.metadata.hits + stC9.metadata.misses ∧
    stC9.getStats.hitRate =
      jsToFixedFrac 2 (stC9.metadata.hits * 100)
        (stC9.metadata.hits + stC9.metadata.misses) ++ "%" ∧
    0 < stC9.metadata.totalEntries ∧
    2 * |stC9.getStats.averageEntrySize * stC9.metadata.totalEntries - stC9.metadata.totalSize|
      ≤ stC9.metadata.totalEntries :=
  ⟨by decide, (C9_derived_stats stC9).2.1 (by decide), by decide,
   (C9_derived_stats stC9).2.2.2 (by decide)⟩

/-- C10: after every sequence of public memory-tier operations (set, get,
has, delete, clear, with any interleaved evictions inside set) starting
from the empty cache, the metadata stays consistent with the stored map:
`totalEntries` equals the number of entries in the map and `totalSize`
equals the sum of their `size` fields. -/
theorem C10_metadata_consistent (ops : List (Int × MOp)) (st' : MemoryCache)
    (h : runOps ops emptyMemoryCache = some st') :
    st'.metadata.totalEntries = (st'.cache.length : Int) ∧
    st'.metadata.totalSize = sizeSum st'.cache := by
  obtain ⟨h1, h2, _, _⟩ := runOps_memInv ops _ _ memInv_empty h
  exact ⟨h1, h2⟩

/-- The state after the operation sequence of the C10 witness. -/
def c10Final : MemoryCache :=
  ⟨[("a", ⟨"xy", 0, 1000, 2, 1, "a"⟩)], ⟨2, 1, 1, 1, 0⟩⟩

/-- Witness for C10: a concrete operation sequence keeps the counters
consistent. -/
theorem C10_metadata_consistent_witness :
    runOps [(0, .setOp "a" "xy" 1000), (1, .getOp "a"), (2, .getOp "b")] emptyMemoryCache
      = some c10Final ∧
    (c10Final.metadata.totalEntries = (c10Final.cache.length : Int) ∧
      c10Final.metadata.totalSize = sizeSum c10Final.cache) :=
  ⟨by decide,
   C10_metadata_consistent [(0, .setOp "a" "xy" 1000), (1, .getOp "a"), (2, .getOp "b")]
     c10Final (by decide)⟩
